import Mathlib

/-!
Verification of the `sniff_interop` change-representation data model.

The Rust source (`src/lib.rs`) is shallowly embedded below:
* machine integers (`u8`, `u32`, `u64`) are modelled as `Nat` — no arithmetic is
  ever performed on them, so overflow cannot matter;
* Rust `String` / `Vec<u8>` values are modelled as lists of byte values
  (`List Nat`); Rust's `Ord` on `String` is byte-wise lexicographic on the
  UTF-8 bytes, which is exactly `List.Lex (· < ·)` on this model;
* `std::collections::BTreeMap<String, V>` is modelled by its entry sequence: a
  list of key-value pairs strictly sorted by key, with the insertion operation
  (last write wins) modelled explicitly;
* fallible conversions return `Option` / `Except`.
-/

namespace SniffInterop

/-- Rust strings and byte vectors, modelled as lists of byte values (all
strings appearing here are ASCII, one byte per character). -/
abbrev RStr := List Nat

/-- `Change<T>`: a change from one value to another (`src/lib.rs:6-12`). -/
structure Change (T : Type) where
  «from» : T
  «to» : T
  deriving DecidableEq

/-- `Change::map` (`src/lib.rs:16-21`): maps the contained values to a new value. -/
def Change.map {T R : Type} (f : T → R) (c : Change T) : Change R :=
  { «from» := f c.«from», «to» := f c.«to» }

/-- `MaybeChange<T>`: a possibly changed value (`src/lib.rs:32-38`). -/
inductive MaybeChange (T : Type) where
  | Change (change : Change T)
  | Same (val : T)
  deriving DecidableEq

/-- `MaybeChange::map` (`src/lib.rs:42-47`). -/
def MaybeChange.map {T R : Type} (f : T → R) : MaybeChange T → MaybeChange R
  | .Change change => .Change (change.map f)
  | .Same val => .Same (f val)

/-- `MaybeChange::is_changed` (`src/lib.rs:50-52`). -/
def MaybeChange.is_changed {T : Type} : MaybeChange T → Bool
  | .Change _ => true
  | .Same _ => false

/-- `MaybeChange::new_val` (`src/lib.rs:55-60`): the value after a possible change. -/
def MaybeChange.new_val {T : Type} : MaybeChange T → T
  | .Change change => change.«to»
  | .Same val => val

/-- `MaybeChange::old_val` (`src/lib.rs:63-68`): the value before a possible change. -/
def MaybeChange.old_val {T : Type} : MaybeChange T → T
  | .Change change => change.«from»
  | .Same val => val

/-- `Hash` (`src/lib.rs:71-73`): 32 raw bytes.  The bytes of a well-formed hash
satisfy `Hash.wf` below (`[u8; 32]` in Rust). -/
structure Hash where
  bytes : List Nat
  deriving DecidableEq

/-- Well-formedness of the byte array backing a `Hash`: exactly 32 bytes,
each a `u8` value. -/
def Hash.wf (h : Hash) : Prop :=
  h.bytes.length = 32 ∧ ∀ b ∈ h.bytes, b < 256

instance (h : Hash) : Decidable h.wf := by
  unfold Hash.wf
  infer_instance

/-- Lower-case hexadecimal digit byte for a nibble (`0`-`9` → `'0'`-`'9'`,
`10`-`15` → `'a'`-`'f'`), as Rust's `{:x}` formatting produces. -/
def hexDigit (n : Nat) : Nat := if n < 10 then n + 48 else n + 87

/-- One byte rendered as two lower-case hex digits (`{b:02x}`), most
significant nibble first. -/
def byteToHex (b : Nat) : List Nat := [hexDigit (b / 16), hexDigit (b % 16)]

/-- `Debug for Hash` and `From<Hash> for String` (`src/lib.rs:75-89`): every
byte written as `{b:02x}`, in byte order.  The result is the ASCII byte
sequence of the produced string. -/
def Hash.toHexString (h : Hash) : RStr := h.bytes.flatMap byteToHex

/-- `hex::FromHexError` (the error type of `hex::decode_to_slice`; the source
converts it to its display string, carrying the cause). -/
inductive FromHexError where
  | InvalidHexCharacter (c : Nat) (index : Nat)
  | OddLength
  | InvalidStringLength
  deriving DecidableEq

/-- `hex`'s digit valuation: `'A'`-`'F'`, then `'a'`-`'f'`, then `'0'`-`'9'`,
otherwise an `InvalidHexCharacter` error naming the byte and its index. -/
def hexVal (c : Nat) (idx : Nat) : Except FromHexError Nat :=
  if 65 ≤ c ∧ c ≤ 70 then .ok (c - 65 + 10)
  else if 97 ≤ c ∧ c ≤ 102 then .ok (c - 97 + 10)
  else if 48 ≤ c ∧ c ≤ 57 then .ok (c - 48)
  else .error (.InvalidHexCharacter c idx)

/-- The pair loop of `hex::decode_to_slice`: two hex digits per output byte,
high nibble first, processed left to right with the first error winning.
(`idx` tracks the position for error reporting; the odd tail case cannot be
reached behind the even-length check but is kept total.) -/
def hexDecodePairs : List Nat → Nat → Except FromHexError (List Nat)
  | [], _ => .ok []
  | c1 :: c2 :: rest, idx =>
    match hexVal c1 idx with
    | .error e => .error e
    | .ok hi =>
      match hexVal c2 (idx + 1) with
      | .error e => .error e
      | .ok lo =>
        match hexDecodePairs rest (idx + 2) with
        | .error e => .error e
        | .ok tail => .ok ((hi * 16 + lo) :: tail)
  | [_], _ => .error .OddLength

/-- `TryFrom<&str> for Hash` (`src/lib.rs:91-100`) via `hex::decode_to_slice`
into a 32-byte buffer: an odd-length input is rejected first, then an input
whose half-length is not 32, then the digits are decoded pairwise. -/
def Hash.try_from (s : RStr) : Except FromHexError Hash :=
  if s.length % 2 ≠ 0 then .error .OddLength
  else if s.length / 2 ≠ 32 then .error .InvalidStringLength
  else (hexDecodePairs s 0).map Hash.mk

/-- A byte that `hexVal` accepts. -/
def isHexByte (b : Nat) : Bool :=
  (65 ≤ b && b ≤ 70) || (97 ≤ b && b ≤ 102) || (48 ≤ b && b ≤ 57)

/-- ASCII lower-casing of one byte (upper-case letters shifted by 32),
modelling what "the lowercase form" of a hex string means. -/
def asciiLower (b : Nat) : Nat := if 65 ≤ b ∧ b ≤ 90 then b + 32 else b

/-- The ASCII bytes of a string literal (all strings in this development are
ASCII, one byte per character). -/
def strBytes (s : String) : RStr := s.data.map Char.toNat

/-- `EntryDiff` (`src/lib.rs:104-121`): a change of a file system entry. -/
inductive EntryDiff where
  | FileChanged (hash_change : Change Hash)
  | SymlinkChanged (path_change : Change RStr)
  | TypeChange (change : Change RStr)
  | OtherChange
  deriving DecidableEq

/-- `NamedStreamType` (`src/lib.rs:125-143`). -/
inductive NamedStreamType where
  | ReparseData
  | AccessControlList
  | DosName
  | ObjectId
  | EncryptedFileSystemInfo
  | ExtendedAttributes
  | AlternateDataStream (name : RStr)
  deriving DecidableEq

/-- `MetadataChange` (`src/lib.rs:229-244`): a single change in the metadata. -/
inductive MetadataChange where
  | Size (change : Change Nat)
  | NtfsAttributes (change : Change (Option Nat))
  | UnixPermissions (change : Change (Option Nat))
  | Nlink (change : Change (Option Nat))
  | Uid (change : Change (Option Nat))
  | Gid (change : Change (Option Nat))
  | NamedStream (ty : NamedStreamType) (change : Change (Option RStr))
  deriving DecidableEq

/-- `MetadataInfo<Timestamp>` (`src/lib.rs:248-261`). -/
structure MetadataInfo (Timestamp : Type) where
  changes : List MetadataChange
  inode : MaybeChange (Option Nat)
  created : MaybeChange (Option Timestamp)
  modified : MaybeChange (Option Timestamp)
  accessed : MaybeChange (Option Timestamp)
  inode_modified : MaybeChange (Option Timestamp)
  deriving DecidableEq

/-- `MetadataInfo::transform_timestamps` (`src/lib.rs:265-280`). -/
def MetadataInfo.transform_timestamps {Ts NewTs : Type} (m : MetadataInfo Ts)
    (f : Ts → NewTs) : MetadataInfo NewTs :=
  { changes := m.changes
    inode := m.inode
    created := m.created.map (fun ts_opt => ts_opt.map f)
    modified := m.modified.map (fun ts_opt => ts_opt.map f)
    accessed := m.accessed.map (fun ts_opt => ts_opt.map f)
    inode_modified := m.inode_modified.map (fun ts_opt => ts_opt.map f) }

/-- `MetaEntryDiff<Timestamp>` (`src/lib.rs:284-293`). -/
inductive MetaEntryDiff (Timestamp : Type) where
  | Added (info : MetadataInfo Timestamp)
  | Deleted (info : MetadataInfo Timestamp)
  | MetaOnlyChange (info : MetadataInfo Timestamp)
  | EntryChange (entry : EntryDiff) (info : MetadataInfo Timestamp)
  deriving DecidableEq

/-- `MetaEntryDiff::meta_info` (`src/lib.rs:297-304`). -/
def MetaEntryDiff.meta_info {Ts : Type} : MetaEntryDiff Ts → MetadataInfo Ts
  | .Added info => info
  | .Deleted info => info
  | .EntryChange _ info => info
  | .MetaOnlyChange info => info

/-- `MetaEntryDiff::transform_timestamps` (`src/lib.rs:307-321`). -/
def MetaEntryDiff.transform_timestamps {Ts NewTs : Type} (d : MetaEntryDiff Ts)
    (f : Ts → NewTs) : MetaEntryDiff NewTs :=
  match d with
  | .Added meta => .Added (meta.transform_timestamps f)
  | .Deleted meta => .Deleted (meta.transform_timestamps f)
  | .MetaOnlyChange meta => .MetaOnlyChange (meta.transform_timestamps f)
  | .EntryChange entry meta => .EntryChange entry (meta.transform_timestamps f)

/-- `time::PrimitiveDateTime`, modelled by its calendar components.  The
`time` crate stores dates in the range `-9999-01-01` to `9999-12-31` (default
features) and times at nanosecond precision; `PrimitiveDateTime.valid` below
captures exactly the representable components. -/
structure PrimitiveDateTime where
  year : Int
  month : Nat
  day : Nat
  hour : Nat
  minute : Nat
  second : Nat
  nanosecond : Nat
  deriving DecidableEq

/-- `time::util::is_leap_year`. -/
def is_leap_year (y : Int) : Bool :=
  y % 4 = 0 && (y % 100 ≠ 0 || y % 400 = 0)

/-- `time::util::days_in_year_month`. -/
def days_in_month (y : Int) (m : Nat) : Nat :=
  if m = 2 then (if is_leap_year y then 29 else 28)
  else if m = 4 ∨ m = 6 ∨ m = 9 ∨ m = 11 then 30
  else 31

/-- The component ranges accepted by `time`'s constructors
(`Date::from_calendar_date`, `Time::from_hms_nano`). -/
def PrimitiveDateTime.valid (t : PrimitiveDateTime) : Prop :=
  -9999 ≤ t.year ∧ t.year ≤ 9999 ∧
  1 ≤ t.month ∧ t.month ≤ 12 ∧
  1 ≤ t.day ∧ t.day ≤ days_in_month t.year t.month ∧
  t.hour ≤ 23 ∧ t.minute ≤ 59 ∧ t.second ≤ 59 ∧
  t.nanosecond < 1000000000

instance (t : PrimitiveDateTime) : Decidable t.valid := by
  unfold PrimitiveDateTime.valid
  infer_instance

/-- ASCII decimal digits of `n`, most significant first (fuel-bounded
structural recursion; exact for all `n < 10 ^ fuel`). -/
def natDigitsAux : Nat → Nat → List Nat
  | 0, _ => []
  | fuel + 1, n => if n < 10 then [n + 48] else natDigitsAux fuel (n / 10) ++ [n % 10 + 48]

/-- ASCII decimal digits of `n`, most significant first.  The fuel `10` makes
this exact for every `n < 10 ^ 10`, which covers all values formatted here
(years ≤ 9999, two-digit fields, nanoseconds < 10 ^ 9). -/
def natDigits (n : Nat) : List Nat := natDigitsAux 10 n

/-- Zero-padding to width `w`, as `time`'s `format_number` does with
`Padding::Zero` (more digits than `w` are kept if the value demands it). -/
def padDigits (w n : Nat) : List Nat :=
  List.replicate (w - (natDigits n).length) 48 ++ natDigits n

/-- The value/width computation `time`'s formatter performs for
`[subsecond digits:1+]`: starting from the nanosecond value at width 9, strip
trailing decimal zeros while keeping at least one digit. -/
def subsecStrip : Nat → Nat → Nat × Nat
  | v, 0 => (v, 0)
  | v, 1 => (v, 1)
  | v, w + 2 => if v % 10 = 0 then subsecStrip (v / 10) (w + 1) else (v, w + 2)

/-- Formatting through `TIMESTAMP_FORMAT` (`src/lib.rs:146-148`):
`[year]-[month]-[day] [hour]:[minute]:[second].[subsecond digits:1+]` as the
`time` crate renders it — a leading `-` for negative years, the year
zero-padded to 4 digits, every other date/time field zero-padded to 2 digits,
and the subseconds with trailing zeros stripped (at least one digit).  The
result is the ASCII byte sequence of the formatted string. -/
def formatTimestamp (t : PrimitiveDateTime) : List Nat :=
  (if t.year < 0 then [45] else []) ++ padDigits 4 t.year.natAbs ++ [45] ++
  padDigits 2 t.month ++ [45] ++ padDigits 2 t.day ++ [32] ++
  padDigits 2 t.hour ++ [58] ++ padDigits 2 t.minute ++ [58] ++
  padDigits 2 t.second ++ [46] ++
  (let vw := subsecStrip t.nanosecond 9
   padDigits vw.2 vw.1)

/-- ASCII decimal digit test. -/
def isDigitByte (b : Nat) : Bool := 48 ≤ b && b ≤ 57

/-- `time`'s `exactly_n_digits_padded` with `Padding::Zero`: consume exactly
`n` ASCII digits, most significant first. -/
def parseNDigitsAux : Nat → Nat → List Nat → Option (Nat × List Nat)
  | 0, acc, s => some (acc, s)
  | n + 1, acc, s =>
    match s with
    | [] => none
    | b :: rest =>
      if isDigitByte b then parseNDigitsAux n (acc * 10 + (b - 48)) rest else none

/-- Consume one expected literal byte. -/
def expectByte (b : Nat) : List Nat → Option (List Nat)
  | [] => none
  | c :: rest => if c = b then some rest else none

/-- The optional sign in front of a full-representation year
(`time`'s `parse_year` accepts an optional leading `+` or `-`). -/
def parseSign (s : List Nat) : Bool × List Nat :=
  match s with
  | b :: rest =>
    if b = 43 then (false, rest)
    else if b = 45 then (true, rest)
    else (false, b :: rest)
  | [] => (false, [])

/-- Greedy digit consumption, at most `fuel` digits, returning the
accumulated value, the count of digits consumed, and the rest. -/
def takeDigitsAux : Nat → Nat → Nat → List Nat → Nat × Nat × List Nat
  | 0, acc, cnt, s => (acc, cnt, s)
  | fuel + 1, acc, cnt, s =>
    match s with
    | [] => (acc, cnt, [])
    | b :: rest =>
      if isDigitByte b then takeDigitsAux fuel (acc * 10 + (b - 48)) (cnt + 1) rest
      else (acc, cnt, b :: rest)

/-- Parsing of `[subsecond digits:1+]`: greedily consume 1 to 9 digits and
scale the parsed value to nanoseconds. -/
def parseSubsecond (s : List Nat) : Option (Nat × List Nat) :=
  let vcr := takeDigitsAux 9 0 0 s
  if vcr.2.1 = 0 then none else some (vcr.1 * 10 ^ (9 - vcr.2.1), vcr.2.2)

/-- The remainder of `TIMESTAMP_FORMAT` parsing after the optional year
sign: exactly 4 digits for the year, exactly 2 digits for the other
date/time fields, the literal separators, 1-9 greedy subsecond digits, the
whole input consumed, and the component-range validation performed by `time`
(month 1-12, day within the month, hour ≤ 23, minute ≤ 59, second ≤ 59). -/
def parseAfterSign (neg : Bool) (s1 : List Nat) : Option PrimitiveDateTime :=
  match parseNDigitsAux 4 0 s1 with
  | none => none
  | some (y, s2) =>
    match expectByte 45 s2 with
    | none => none
    | some s3 =>
      match parseNDigitsAux 2 0 s3 with
      | none => none
      | some (month, s4) =>
        if ¬ (1 ≤ month ∧ month ≤ 12) then none else
        match expectByte 45 s4 with
        | none => none
        | some s5 =>
          match parseNDigitsAux 2 0 s5 with
          | none => none
          | some (day, s6) =>
            match expectByte 32 s6 with
            | none => none
            | some s7 =>
              match parseNDigitsAux 2 0 s7 with
              | none => none
              | some (hour, s8) =>
                match expectByte 58 s8 with
                | none => none
                | some s9 =>
                  match parseNDigitsAux 2 0 s9 with
                  | none => none
                  | some (minute, s10) =>
                    match expectByte 58 s10 with
                    | none => none
                    | some s11 =>
                      match parseNDigitsAux 2 0 s11 with
                      | none => none
                      | some (second, s12) =>
                        match expectByte 46 s12 with
                        | none => none
                        | some s13 =>
                          match parseSubsecond s13 with
                          | none => none
                          | some (nanosecond, s14) =>
                            if ¬ s14 = [] then none
                            else if ¬ (1 ≤ day ∧
                                day ≤ days_in_month
                                  (if neg then -(y : Int) else (y : Int)) month) then none
                            else if hour ≤ 23 ∧ minute ≤ 59 ∧ second ≤ 59 then
                              some ⟨if neg then -(y : Int) else (y : Int),
                                month, day, hour, minute, second, nanosecond⟩
                            else none

/-- Parsing through `TIMESTAMP_FORMAT` as `PrimitiveDateTime::parse` does:
an optional leading sign, then the year and the rest of the format. -/
def parseTimestamp (s : List Nat) : Option PrimitiveDateTime :=
  parseAfterSign (parseSign s).1 (parseSign s).2

/-- `Timestamp` (`src/lib.rs:197-203`): wraps a `time::OffsetDateTime`.  The
instant is modelled by its UTC calendar components — the codec below formats
without any offset component and re-interprets the parsed date-time as UTC
(`assume_utc`), so the UTC components are exactly what the codec transports. -/
structure Timestamp where
  inner : PrimitiveDateTime
  deriving DecidableEq

namespace timestamp_serde

/-- `timestamp_serde::serialize` (`src/lib.rs:153-164`): format through
`TIMESTAMP_FORMAT` and emit the resulting string. -/
def serialize (timestamp : Timestamp) : List Nat :=
  formatTimestamp timestamp.inner

/-- `timestamp_serde::deserialize` (`src/lib.rs:167-193`): parse the string
as a `PrimitiveDateTime` against `TIMESTAMP_FORMAT` and `assume_utc`. -/
def deserialize (s : List Nat) : Option Timestamp :=
  (parseTimestamp s).map Timestamp.mk

end timestamp_serde

/-- One `BTreeMap::insert` on the sorted entry list (keys ordered by Rust's
`Ord for String`, i.e. byte-wise lexicographic, which is `<` on `List Nat`);
inserting an existing key replaces its value. -/
def btreeInsert {V : Type} (k : RStr) (v : V) : List (RStr × V) → List (RStr × V)
  | [] => [(k, v)]
  | (k', v') :: rest =>
    if List.Lex (· < ·) k k' then (k, v) :: (k', v') :: rest
    else if k = k' then (k, v) :: rest
    else (k', v') :: btreeInsert k v rest

/-- Building a `BTreeMap` by inserting the given pairs in order. -/
def btreeOfList {V : Type} (l : List (RStr × V)) : List (RStr × V) :=
  l.foldl (fun m kv => btreeInsert kv.1 kv.2 m) []

/-- `Changeset<Timestamp>` (`src/lib.rs:326-331`).  In the source the type
parameter shadows the concrete `Timestamp`; the `earliest_timestamp` field is
`self::Timestamp`, the concrete type, independent of the parameter.  The
`changes` field is a `BTreeMap<String, MetaEntryDiff<Ts>>`, modelled by its
entry sequence (sorted by key for any map built through `btreeOfList`). -/
structure Changeset (Ts : Type) where
  earliest_timestamp : Timestamp
  changes : List (RStr × MetaEntryDiff Ts)
  deriving DecidableEq

/-- `Changeset::transform_timestamps` (`src/lib.rs:335-347`): clones
`earliest_timestamp` (no function application) and maps every entry's diff
through `MetaEntryDiff::transform_timestamps`.  Collecting the mapped
iteration of a `BTreeMap` back into a `BTreeMap` keeps the keys and their
sorted order, so on entry sequences it is exactly `List.map`. -/
def Changeset.transform_timestamps {Ts NewTs : Type} (c : Changeset Ts)
    (f : Ts → NewTs) : Changeset NewTs :=
  { earliest_timestamp := c.earliest_timestamp
    changes := c.changes.map (fun pd => (pd.1, pd.2.transform_timestamps f)) }

deriving instance DecidableEq for Except

/-! ## Supporting lemmas -/

/-- `meta_info` commutes with `transform_timestamps`. -/
theorem MetaEntryDiff.meta_info_transform {Ts NewTs : Type} (d : MetaEntryDiff Ts)
    (f : Ts → NewTs) :
    (d.transform_timestamps f).meta_info = d.meta_info.transform_timestamps f := by
  cases d <;> rfl

/-- Decoding a digit the encoder produced recovers the nibble. -/
theorem hexVal_hexDigit {n : Nat} (h : n < 16) (idx : Nat) :
    hexVal (hexDigit n) idx = .ok n := by
  rcases Nat.lt_or_ge n 10 with h10 | h10
  · have hd : hexDigit n = n + 48 := by
      simp only [hexDigit]
      rw [if_pos h10]
    rw [hd]
    have hv : hexVal (n + 48) idx = .ok (n + 48 - 48) := by
      simp only [hexVal]
      rw [if_neg (by omega), if_neg (by omega), if_pos (by omega)]
    rw [hv]
    exact congrArg Except.ok (by omega)
  · have hd : hexDigit n = n + 87 := by
      simp only [hexDigit]
      rw [if_neg (by omega)]
    rw [hd]
    have hv : hexVal (n + 87) idx = .ok (n + 87 - 97 + 10) := by
      simp only [hexVal]
      rw [if_neg (by omega), if_pos (by omega)]
    rw [hv]
    exact congrArg Except.ok (by omega)

/-- A hex byte decodes without error, to a nibble whose canonical encoding is
the lower-cased input byte. -/
theorem hexVal_of_isHex {c : Nat} (h : isHexByte c = true) (idx : Nat) :
    ∃ v, v < 16 ∧ hexVal c idx = .ok v ∧ hexDigit v = asciiLower c := by
  simp only [isHexByte, Bool.or_eq_true, Bool.and_eq_true, decide_eq_true_eq] at h
  rcases h with (⟨h1, h2⟩ | ⟨h1, h2⟩) | ⟨h1, h2⟩
  · exact ⟨c - 65 + 10, by omega, by simp only [hexVal, if_pos (And.intro h1 h2)],
      by simp only [hexDigit, asciiLower]; split_ifs <;> omega⟩
  · refine ⟨c - 97 + 10, by omega, ?_, ?_⟩
    · simp only [hexVal]
      split_ifs <;> first | rfl | omega
    · simp only [hexDigit, asciiLower]; split_ifs <;> omega
  · refine ⟨c - 48, by omega, ?_, ?_⟩
    · simp only [hexVal]
      split_ifs <;> first | rfl | omega
    · simp only [hexDigit, asciiLower]; split_ifs <;> omega

/-- A non-hex byte makes `hexVal` report it. -/
theorem hexVal_of_not_hex {c : Nat} (h : isHexByte c = false) (idx : Nat) :
    hexVal c idx = .error (.InvalidHexCharacter c idx) := by
  simp only [isHexByte, Bool.or_eq_false_iff, Bool.and_eq_false_iff,
    decide_eq_false_iff_not] at h
  simp only [hexVal]
  split_ifs <;> first | rfl | omega

/-- Decoding the pairwise hex encoding of a byte list recovers the bytes. -/
theorem hexDecodePairs_flatMap {bs : List Nat} (h : ∀ b ∈ bs, b < 256) (idx : Nat) :
    hexDecodePairs (bs.flatMap byteToHex) idx = .ok bs := by
  induction bs generalizing idx with
  | nil => rfl
  | cons b rest ih =>
    have hb : b < 256 := h b (List.mem_cons_self b rest)
    have hrest : ∀ x ∈ rest, x < 256 := fun x hx => h x (List.mem_cons_of_mem b hx)
    have hdiv : b / 16 < 16 := by omega
    have hmod : b % 16 < 16 := by omega
    have hflat : (b :: rest).flatMap byteToHex
        = hexDigit (b / 16) :: hexDigit (b % 16) :: rest.flatMap byteToHex := by
      simp [byteToHex]
    rw [hflat]
    simp only [hexDecodePairs]
    rw [hexVal_hexDigit hdiv, hexVal_hexDigit hmod, ih hrest]
    have hb16 : b / 16 * 16 + b % 16 = b := by omega
    simp [hb16]

/-- The pairwise hex encoding of a byte list has twice its length. -/
theorem flatMap_byteToHex_length (bs : List Nat) :
    (bs.flatMap byteToHex).length = 2 * bs.length := by
  induction bs with
  | nil => rfl
  | cons b rest ih => simp [byteToHex, ih]; omega

/-- Decoding an even-length all-hex byte string succeeds, and the decoded
bytes re-encode to the lower-cased input. -/
theorem hexDecodePairs_of_hex :
    ∀ (s : List Nat) (idx : Nat), s.length % 2 = 0 → (∀ b ∈ s, isHexByte b = true) →
    ∃ bs, hexDecodePairs s idx = .ok bs ∧ (∀ b ∈ bs, b < 256) ∧
      bs.flatMap byteToHex = s.map asciiLower ∧ 2 * bs.length = s.length
  | [], _, _, _ => ⟨[], rfl, by simp, by simp, by simp⟩
  | c1 :: c2 :: rest, idx, hlen, hhex => by
    have h1 : isHexByte c1 = true := hhex c1 (by simp)
    have h2 : isHexByte c2 = true := hhex c2 (by simp)
    obtain ⟨v1, hv1lt, hv1, hv1enc⟩ := hexVal_of_isHex h1 idx
    obtain ⟨v2, hv2lt, hv2, hv2enc⟩ := hexVal_of_isHex h2 (idx + 1)
    obtain ⟨bs, hbs, hbslt, hbsenc, hbslen⟩ := hexDecodePairs_of_hex rest (idx + 2)
      (by simp only [List.length_cons] at hlen; omega)
      (fun b hb => hhex b (by simp [hb]))
    refine ⟨(v1 * 16 + v2) :: bs, ?_, ?_, ?_, ?_⟩
    · simp only [hexDecodePairs]
      rw [hv1, hv2, hbs]
    · intro b hb
      rcases List.mem_cons.mp hb with hb | hb
      · omega
      · exact hbslt b hb
    · have hdiv : (v1 * 16 + v2) / 16 = v1 := by omega
      have hmod : (v1 * 16 + v2) % 16 = v2 := by omega
      simp [byteToHex, hdiv, hmod, hv1enc, hv2enc, hbsenc]
    · simp only [List.length_cons]
      omega
  | [_], _, hlen, _ => by simp at hlen

/-- A byte string containing a non-hex byte fails to decode (either at the
offending character or, for an odd-length tail, at the length). -/
theorem hexDecodePairs_of_bad :
    ∀ (s : List Nat) (idx : Nat), (∃ b ∈ s, isHexByte b = false) →
    ∃ e, hexDecodePairs s idx = .error e
  | [], _, h => by simp at h
  | c1 :: c2 :: rest, idx, h => by
    by_cases hc1 : isHexByte c1
    · obtain ⟨v1, _, hv1, _⟩ := hexVal_of_isHex hc1 idx
      by_cases hc2 : isHexByte c2
      · obtain ⟨v2, _, hv2, _⟩ := hexVal_of_isHex hc2 (idx + 1)
        have hrest : ∃ b ∈ rest, isHexByte b = false := by
          rcases h with ⟨b, hb, hbad⟩
          rcases List.mem_cons.mp hb with rfl | hb
          · simp [hc1] at hbad
          rcases List.mem_cons.mp hb with rfl | hb
          · simp [hc2] at hbad
          · exact ⟨b, hb, hbad⟩
        obtain ⟨e, he⟩ := hexDecodePairs_of_bad rest (idx + 2) hrest
        refine ⟨e, ?_⟩
        simp only [hexDecodePairs]
        rw [hv1, hv2, he]
      · refine ⟨.InvalidHexCharacter c2 (idx + 1), ?_⟩
        simp only [hexDecodePairs]
        rw [hv1, hexVal_of_not_hex (Bool.eq_false_iff.mpr hc2) (idx + 1)]
    · refine ⟨.InvalidHexCharacter c1 idx, ?_⟩
      simp only [hexDecodePairs]
      rw [hexVal_of_not_hex (Bool.eq_false_iff.mpr hc1) idx]
  | [_], _, _ => ⟨.OddLength, rfl⟩

/-- The numeric value of a big-endian ASCII digit list (the accumulator loop
shared by the fixed-width and subsecond digit parsers, started at 0). -/
def digitsVal (l : List Nat) : Nat := l.foldl (fun a b => a * 10 + (b - 48)) 0

theorem digitsVal_foldl (l : List Nat) :
    ∀ a : Nat, l.foldl (fun x b => x * 10 + (b - 48)) a = a * 10 ^ l.length + digitsVal l := by
  induction l with
  | nil =>
    intro a
    simp [digitsVal]
  | cons b l ih =>
    intro a
    simp only [List.foldl_cons, List.length_cons, digitsVal] at *
    rw [ih (a * 10 + (b - 48)), ih (0 * 10 + (b - 48)), pow_succ]
    ring

theorem digitsVal_cons (b : Nat) (L : List Nat) :
    digitsVal (b :: L) = (b - 48) * 10 ^ L.length + digitsVal L := by
  simp only [digitsVal, List.foldl_cons]
  rw [digitsVal_foldl]
  simp only [Nat.zero_mul, Nat.zero_add, digitsVal]

theorem natDigitsAux_digits : ∀ (fuel n : Nat), ∀ b ∈ natDigitsAux fuel n, 48 ≤ b ∧ b ≤ 57 := by
  intro fuel
  induction fuel with
  | zero =>
    intro n b hb
    simp [natDigitsAux] at hb
  | succ fuel ih =>
    intro n b hb
    simp only [natDigitsAux] at hb
    split_ifs at hb with h
    · simp at hb
      omega
    · rcases List.mem_append.mp hb with hb | hb
      · exact ih _ b hb
      · simp at hb
        have := Nat.mod_lt n (show 0 < 10 by norm_num)
        omega

theorem digitsVal_natDigitsAux : ∀ (fuel n : Nat), n < 10 ^ fuel →
    digitsVal (natDigitsAux fuel n) = n := by
  intro fuel
  induction fuel with
  | zero =>
    intro n h
    simp only [pow_zero, Nat.lt_one_iff] at h
    simp [natDigitsAux, digitsVal, h]
  | succ fuel ih =>
    intro n h
    simp only [natDigitsAux]
    split_ifs with h10
    · simp only [digitsVal, List.foldl_cons, List.foldl_nil]
      omega
    · have hdiv : n / 10 < 10 ^ fuel := by
        rw [Nat.div_lt_iff_lt_mul (by norm_num)]
        have hpow : 10 ^ fuel * 10 = 10 ^ (fuel + 1) := (pow_succ 10 fuel).symm
        omega
      simp only [digitsVal, List.foldl_append, List.foldl_cons, List.foldl_nil]
      have hv := ih (n / 10) hdiv
      simp only [digitsVal] at hv
      rw [hv]
      omega

theorem natDigitsAux_length : ∀ (fuel n k : Nat), n < 10 ^ k → 1 ≤ k →
    (natDigitsAux fuel n).length ≤ k := by
  intro fuel
  induction fuel with
  | zero =>
    intro n k _ _
    simp [natDigitsAux]
  | succ fuel ih =>
    intro n k hn hk
    simp only [natDigitsAux]
    split_ifs with h10
    · simpa using hk
    · have hk2 : 2 ≤ k := by
        by_contra hlt
        have hk1 : k = 1 := by omega
        subst hk1
        simp only [pow_one] at hn
        omega
      have hdiv : n / 10 < 10 ^ (k - 1) := by
        rw [Nat.div_lt_iff_lt_mul (by norm_num)]
        have hpow : 10 ^ (k - 1) * 10 = 10 ^ k := by
          rw [← pow_succ]
          congr 1
          omega
        omega
      have := ih (n / 10) (k - 1) hdiv (by omega)
      simp only [List.length_append, List.length_cons, List.length_nil]
      omega

theorem natDigitsAux_ne_nil (fuel n : Nat) (h : 1 ≤ fuel) : natDigitsAux fuel n ≠ [] := by
  cases fuel with
  | zero => omega
  | succ fuel =>
    simp only [natDigitsAux]
    split_ifs
    · simp
    · simp

theorem digitsVal_replicate_append (j : Nat) (L : List Nat) :
    digitsVal (List.replicate j 48 ++ L) = digitsVal L := by
  induction j with
  | zero => simp
  | succ j ih =>
    simp only [List.replicate_succ, List.cons_append, digitsVal, List.foldl_cons]
    simpa [digitsVal] using ih

theorem padDigits_length {w v : Nat} (h : (natDigits v).length ≤ w) :
    (padDigits w v).length = w := by
  simp only [padDigits, List.length_append, List.length_replicate]
  omega

theorem padDigits_digits {w v : Nat} : ∀ b ∈ padDigits w v, 48 ≤ b ∧ b ≤ 57 := by
  intro b hb
  simp only [padDigits] at hb
  rcases List.mem_append.mp hb with hb | hb
  · have := List.eq_of_mem_replicate hb
    omega
  · exact natDigitsAux_digits 10 v b hb

theorem padDigits_ne_nil (w v : Nat) : padDigits w v ≠ [] := by
  simp only [padDigits]
  intro h
  rcases List.append_eq_nil.mp h with ⟨_, h2⟩
  exact natDigitsAux_ne_nil 10 v (by omega) h2

theorem digitsVal_padDigits {w v : Nat} (h : v < 10 ^ 10) :
    digitsVal (padDigits w v) = v := by
  simp only [padDigits, digitsVal_replicate_append]
  exact digitsVal_natDigitsAux 10 v h

theorem parseNDigitsAux_exact :
    ∀ (L r : List Nat) (acc : Nat), (∀ b ∈ L, 48 ≤ b ∧ b ≤ 57) →
      parseNDigitsAux L.length acc (L ++ r) = some (acc * 10 ^ L.length + digitsVal L, r) := by
  intro L
  induction L with
  | nil =>
    intro r acc _
    simp [parseNDigitsAux, digitsVal]
  | cons b L ih =>
    intro r acc hd
    have hb := hd b (by simp)
    simp only [List.length_cons, List.cons_append, parseNDigitsAux]
    rw [if_pos (by simp only [isDigitByte, Bool.and_eq_true, decide_eq_true_eq]; omega)]
    rw [ih r (acc * 10 + (b - 48)) (fun x hx => hd x (by simp [hx]))]
    have hval : (acc * 10 + (b - 48)) * 10 ^ L.length + digitsVal L
        = acc * 10 ^ (L.length + 1) + digitsVal (b :: L) := by
      rw [digitsVal_cons, pow_succ]
      ring
    rw [hval]

theorem parseNDigitsAux_padDigits {w v : Nat} (r : List Nat) (hv : v < 10 ^ w)
    (hw1 : 1 ≤ w) (hw10 : w ≤ 10) :
    parseNDigitsAux w 0 (padDigits w v ++ r) = some (v, r) := by
  have hlen : (natDigits v).length ≤ w := natDigitsAux_length 10 v w hv hw1
  have hpl : (padDigits w v).length = w := padDigits_length hlen
  have h10 : v < 10 ^ 10 := lt_of_lt_of_le hv (Nat.pow_le_pow_right (by norm_num) hw10)
  have hex := parseNDigitsAux_exact (padDigits w v) r 0 padDigits_digits
  rw [hpl] at hex
  rw [hex, digitsVal_padDigits h10]
  simp

theorem parseSign_digits : ∀ (L r : List Nat), L ≠ [] → (∀ b ∈ L, 48 ≤ b ∧ b ≤ 57) →
    parseSign (L ++ r) = (false, L ++ r)
  | [], _, h, _ => absurd rfl h
  | b :: L, r, _, hd => by
    have hb := hd b (by simp)
    simp only [List.cons_append, parseSign]
    rw [if_neg (by omega), if_neg (by omega)]

theorem subsecStrip_spec : ∀ (w v : Nat), 1 ≤ w → v < 10 ^ w →
    1 ≤ (subsecStrip v w).2 ∧ (subsecStrip v w).2 ≤ w ∧
    (subsecStrip v w).1 < 10 ^ (subsecStrip v w).2 ∧
    (subsecStrip v w).1 * 10 ^ (w - (subsecStrip v w).2) = v
  | 0, v, h, _ => absurd h (by omega)
  | 1, v, _, hv => by
    simp only [subsecStrip]
    refine ⟨le_refl 1, le_refl 1, ?_, by simp⟩
    simpa using hv
  | w + 2, v, _, hv => by
    simp only [subsecStrip]
    split_ifs with h10
    · have hdiv : v / 10 < 10 ^ (w + 1) := by
        rw [Nat.div_lt_iff_lt_mul (by norm_num)]
        have hpow : 10 ^ (w + 1) * 10 = 10 ^ (w + 2) := (pow_succ 10 (w + 1)).symm
        omega
      obtain ⟨a1, a2, a3, a4⟩ := subsecStrip_spec (w + 1) (v / 10) (by omega) hdiv
      refine ⟨a1, by omega, a3, ?_⟩
      have hsub : w + 2 - (subsecStrip (v / 10) (w + 1)).2
          = (w + 1 - (subsecStrip (v / 10) (w + 1)).2) + 1 := by omega
      rw [hsub, pow_succ, ← Nat.mul_assoc, a4]
      omega
    · exact ⟨by omega, le_refl _, hv, by simp⟩

theorem takeDigitsAux_exact :
    ∀ (L : List Nat) (fuel acc cnt : Nat), (∀ b ∈ L, 48 ≤ b ∧ b ≤ 57) →
      L.length ≤ fuel →
      takeDigitsAux fuel acc cnt L = (acc * 10 ^ L.length + digitsVal L, cnt + L.length, []) := by
  intro L
  induction L with
  | nil =>
    intro fuel acc cnt _ _
    cases fuel <;> simp [takeDigitsAux, digitsVal]
  | cons b L ih =>
    intro fuel acc cnt hd hlen
    cases fuel with
    | zero => simp at hlen
    | succ fuel =>
      have hb := hd b (by simp)
      simp only [takeDigitsAux]
      rw [if_pos (by simp only [isDigitByte, Bool.and_eq_true, decide_eq_true_eq]; omega)]
      rw [ih fuel (acc * 10 + (b - 48)) (cnt + 1) (fun x hx => hd x (by simp [hx]))
        (by simp only [List.length_cons] at hlen; omega)]
      simp only [List.length_cons, Prod.mk.injEq]
      refine ⟨?_, by omega, trivial⟩
      rw [digitsVal_cons, pow_succ]
      ring

theorem parseSubsecond_padDigits {v w : Nat} (hw1 : 1 ≤ w) (hw9 : w ≤ 9) (hv : v < 10 ^ w) :
    parseSubsecond (padDigits w v) = some (v * 10 ^ (9 - w), []) := by
  have hlen : (padDigits w v).length = w := padDigits_length (natDigitsAux_length 10 v w hv hw1)
  have h10 : v < 10 ^ 10 := lt_of_lt_of_le hv (Nat.pow_le_pow_right (by norm_num) (by omega))
  simp only [parseSubsecond]
  rw [takeDigitsAux_exact (padDigits w v) 9 0 0 padDigits_digits (by omega), hlen,
    digitsVal_padDigits h10]
  simp only [Nat.zero_mul, Nat.zero_add]
  rw [if_neg (by omega)]

theorem days_in_month_le (y : Int) (m : Nat) : days_in_month y m ≤ 31 := by
  simp only [days_in_month]
  split_ifs <;> norm_num

theorem parseSign_neg (r : List Nat) : parseSign (45 :: r) = (true, r) := by
  simp [parseSign]

theorem expectByte_cons_self (b : Nat) (r : List Nat) : expectByte b (b :: r) = some r := by
  simp [expectByte]

/-- Parsing the formatted year-and-rest tail recovers the components. -/
theorem parseAfterSign_format (t : PrimitiveDateTime) (hv : t.valid) (neg : Bool)
    (hyr : (if neg then -(t.year.natAbs : Int) else (t.year.natAbs : Int)) = t.year) :
    parseAfterSign neg
      (padDigits 4 t.year.natAbs ++ (45 :: (padDigits 2 t.month ++ (45 ::
        (padDigits 2 t.day ++ (32 :: (padDigits 2 t.hour ++ (58 ::
          (padDigits 2 t.minute ++ (58 :: (padDigits 2 t.second ++ (46 ::
            padDigits (subsecStrip t.nanosecond 9).2
              (subsecStrip t.nanosecond 9).1)))))))))))) = some t := by
  obtain ⟨hy1, hy2, hm1, hm2, hd1, hd2, hh23, hmi59, hs59, hns⟩ := hv
  have hpow9 : (10 : Nat) ^ 9 = 1000000000 := by norm_num
  have hns9 : t.nanosecond < 10 ^ 9 := by
    rw [hpow9]
    exact hns
  obtain ⟨hw1, hw9, hvlt, hvns⟩ := subsecStrip_spec 9 t.nanosecond (by norm_num) hns9
  have habs : t.year.natAbs < 10 ^ 4 := by
    have h4 : (10 : Nat) ^ 4 = 10000 := by norm_num
    rw [h4]
    omega
  have h100 : (10 : Nat) ^ 2 = 100 := by norm_num
  have hm100 : t.month < 10 ^ 2 := by
    rw [h100]
    omega
  have hd100 : t.day < 10 ^ 2 := by
    rw [h100]
    have := days_in_month_le t.year t.month
    omega
  have hh100 : t.hour < 10 ^ 2 := by
    rw [h100]
    omega
  have hmi100 : t.minute < 10 ^ 2 := by
    rw [h100]
    omega
  have hs100 : t.second < 10 ^ 2 := by
    rw [h100]
    omega
  simp only [parseAfterSign]
  rw [parseNDigitsAux_padDigits _ habs (by norm_num) (by norm_num)]
  dsimp only
  rw [expectByte_cons_self]
  dsimp only
  rw [parseNDigitsAux_padDigits _ hm100 (by norm_num) (by norm_num)]
  dsimp only
  rw [if_neg (not_not_intro ⟨hm1, hm2⟩)]
  rw [expectByte_cons_self]
  dsimp only
  rw [parseNDigitsAux_padDigits _ hd100 (by norm_num) (by norm_num)]
  dsimp only
  rw [expectByte_cons_self]
  dsimp only
  rw [parseNDigitsAux_padDigits _ hh100 (by norm_num) (by norm_num)]
  dsimp only
  rw [expectByte_cons_self]
  dsimp only
  rw [parseNDigitsAux_padDigits _ hmi100 (by norm_num) (by norm_num)]
  dsimp only
  rw [expectByte_cons_self]
  dsimp only
  rw [parseNDigitsAux_padDigits _ hs100 (by norm_num) (by norm_num)]
  dsimp only
  rw [expectByte_cons_self]
  dsimp only
  rw [parseSubsecond_padDigits hw1 hw9 hvlt]
  dsimp only
  rw [if_neg (not_not_intro rfl), hyr, if_neg (not_not_intro ⟨hd1, hd2⟩),
    if_pos ⟨hh23, hmi59, hs59⟩, hvns]

/-! ## Claim theorems -/

/-- C9: `MaybeChange::Same(v).old_val()` and `.new_val()` both equal `v`;
`MaybeChange::Change(Change{from, to}).old_val()` equals `from` and
`.new_val()` equals `to`; `is_changed()` returns `true` exactly on the
`Change` variant. -/
theorem maybe_change_accessor_spec {T : Type} (v : T) (p : T × T) :
    (MaybeChange.Same v).old_val = v ∧ (MaybeChange.Same v).new_val = v ∧
    (MaybeChange.Change ⟨p.1, p.2⟩).old_val = p.1 ∧
    (MaybeChange.Change ⟨p.1, p.2⟩).new_val = p.2 ∧
    (∀ mc : MaybeChange T, mc.is_changed = true ↔ ∃ c, mc = .Change c) := by
  refine ⟨rfl, rfl, rfl, rfl, fun mc => ?_⟩
  cases mc <;> simp [MaybeChange.is_changed]

/-- C10: `Changeset::transform_timestamps` copies `earliest_timestamp`
unchanged; `f` is never applied to it (the field always holds the concrete
`Timestamp` type, independent of the type parameter). -/
theorem transform_timestamps_earliest_unchanged {Ts NewTs : Type}
    (c : Changeset Ts) (f : Ts → NewTs) :
    (c.transform_timestamps f).earliest_timestamp = c.earliest_timestamp := rfl

/-- A concrete changeset for the C1 counterexample. -/
def c1Changeset : Changeset Timestamp :=
  { earliest_timestamp := ⟨⟨2024, 1, 1, 0, 0, 0, 0⟩⟩, changes := [] }

/-- A concrete timestamp mapping for the C1 counterexample. -/
def c1Fun : Timestamp → Timestamp := fun _ => ⟨⟨2025, 6, 30, 12, 0, 0, 0⟩⟩

/-- C1 counterexample: `transform_timestamps` does NOT apply `f` to the
`earliest_timestamp` field — at this concrete changeset and mapping, the
returned `earliest_timestamp` differs from `f` applied to the original. -/
theorem transform_timestamps_earliest_not_mapped :
    ¬ ((c1Changeset.transform_timestamps c1Fun).earliest_timestamp
        = c1Fun c1Changeset.earliest_timestamp) := by
  decide

/-- C1 (amended): `transform_timestamps` applies `f` to every timestamp
inside every contained `MetaEntryDiff`, copies `earliest_timestamp` unchanged
(`f` is not applied to it), and returns a `Changeset` with the same path set
in the same order. -/
theorem transform_timestamps_delegates_entries {Ts NewTs : Type}
    (c : Changeset Ts) (f : Ts → NewTs) :
    (c.transform_timestamps f).earliest_timestamp = c.earliest_timestamp ∧
    (c.transform_timestamps f).changes.map Prod.fst = c.changes.map Prod.fst ∧
    List.Forall₂ (fun pd qd => qd.2 = pd.2.transform_timestamps f)
      c.changes (c.transform_timestamps f).changes ∧
    ∀ pd ∈ c.changes,
      ((pd.2.transform_timestamps f).meta_info.created
          = pd.2.meta_info.created.map (fun ts_opt => ts_opt.map f)) ∧
      ((pd.2.transform_timestamps f).meta_info.modified
          = pd.2.meta_info.modified.map (fun ts_opt => ts_opt.map f)) ∧
      ((pd.2.transform_timestamps f).meta_info.accessed
          = pd.2.meta_info.accessed.map (fun ts_opt => ts_opt.map f)) ∧
      ((pd.2.transform_timestamps f).meta_info.inode_modified
          = pd.2.meta_info.inode_modified.map (fun ts_opt => ts_opt.map f)) := by
  refine ⟨rfl, ?_, ?_, ?_⟩
  · simp [Changeset.transform_timestamps]
  · simp only [Changeset.transform_timestamps, List.forall₂_map_right_iff]
    exact List.forall₂_same.mpr (fun pd _ => rfl)
  · intro pd _
    simp [MetaEntryDiff.meta_info_transform, MetadataInfo.transform_timestamps]

/-- C3: for every 32-byte sequence `b`, decoding the hex string produced by
encoding `Hash(b)` succeeds and yields a `Hash` equal to `Hash(b)`. -/
theorem hash_hex_roundtrip (h : Hash) (hwf : h.wf) :
    Hash.try_from h.toHexString = .ok h := by
  obtain ⟨hlen, hbytes⟩ := hwf
  have hlen64 : (h.bytes.flatMap byteToHex).length = 64 := by
    rw [flatMap_byteToHex_length, hlen]
  simp only [Hash.try_from, Hash.toHexString, hlen64]
  rw [if_neg (by omega), if_neg (by omega), hexDecodePairs_flatMap hbytes 0]
  rfl

/-- Witness for C3 at the concrete byte sequence `0, 1, ..., 31`. -/
theorem hash_hex_roundtrip_witness :
    (Hash.wf ⟨List.range 32⟩) ∧
    Hash.try_from (Hash.toHexString ⟨List.range 32⟩) = .ok ⟨List.range 32⟩ :=
  ⟨by decide, hash_hex_roundtrip ⟨List.range 32⟩ (by decide)⟩

/-- C4: decoding any string of exactly 64 hex characters (any case mix)
succeeds, and re-encoding the result yields the lowercase form of the input:
64 lowercase hex characters, two per byte, most significant nibble first, in
byte order. -/
theorem hex_decode_encode_lowercase (s : RStr) (hlen : s.length = 64)
    (hhex : ∀ b ∈ s, isHexByte b = true) :
    ∃ h, Hash.try_from s = .ok h ∧ h.toHexString = s.map asciiLower := by
  obtain ⟨bs, hbs, _, henc, _⟩ := hexDecodePairs_of_hex s 0 (by omega) hhex
  refine ⟨⟨bs⟩, ?_, ?_⟩
  · simp only [Hash.try_from, hlen]
    rw [if_neg (by omega), if_neg (by omega), hbs]
    rfl
  · simpa [Hash.toHexString] using henc

/-- A concrete 64-character mixed-case hex input for the C4 witness. -/
def c4Input : RStr :=
  strBytes "00112233445566778899AaBbCcDdEeFf00112233445566778899FFeeDDccbbAA"

/-- Witness for C4 at a concrete mixed-case input. -/
theorem hex_decode_encode_lowercase_witness :
    c4Input.length = 64 ∧
    ∃ h, Hash.try_from c4Input = .ok h ∧ Hash.toHexString h = c4Input.map asciiLower :=
  ⟨by decide, hex_decode_encode_lowercase c4Input (by decide) (by decide)⟩

/-- C5: decoding a `Hash` from any string that is not exactly 64 hex
characters returns an error (a `FromHexError` cause, no partially decoded
hash); decoding a `Timestamp` from `"2024-13-40 99:99:99.0"` fails with a
parse error and no partial instant. -/
theorem decoding_rejects_malformed_input :
    (∀ s : RStr, ¬ (s.length = 64 ∧ ∀ b ∈ s, isHexByte b = true) →
      ∃ e, Hash.try_from s = .error e) ∧
    timestamp_serde.deserialize (strBytes "2024-13-40 99:99:99.0") = none := by
  constructor
  · intro s hbad
    by_cases hodd : s.length % 2 = 0
    · by_cases hlen : s.length = 64
      · have hnot : ¬ ∀ b ∈ s, isHexByte b = true := fun hall => hbad ⟨hlen, hall⟩
        push_neg at hnot
        simp only [Bool.not_eq_true] at hnot
        obtain ⟨e, he⟩ := hexDecodePairs_of_bad s 0 hnot
        refine ⟨e, ?_⟩
        simp only [Hash.try_from]
        rw [if_neg (by omega), if_neg (by omega), he]
        rfl
      · refine ⟨.InvalidStringLength, ?_⟩
        simp only [Hash.try_from]
        rw [if_neg (by omega), if_pos (by omega)]
    · refine ⟨.OddLength, ?_⟩
      simp only [Hash.try_from]
      rw [if_pos (by omega)]
  · decide

/-- Witness for C5 at the concrete 3-character input `"abc"`. -/
theorem decoding_rejects_malformed_input_witness :
    (¬ ((strBytes "abc").length = 64 ∧ ∀ b ∈ strBytes "abc", isHexByte b = true)) ∧
    ∃ e, Hash.try_from (strBytes "abc") = .error e :=
  ⟨by decide, decoding_rejects_malformed_input.1 (strBytes "abc") (by decide)⟩

/-- Decomposition of lexicographic order at a cons pair. -/
theorem lex_cons_cons_iff {x y : Nat} {u v : List Nat} :
    List.Lex (· < ·) (x :: u) (y :: v) ↔ x < y ∨ (x = y ∧ List.Lex (· < ·) u v) := by
  constructor
  · intro h
    cases h with
    | rel h1 => exact Or.inl h1
    | cons h2 => exact Or.inr ⟨rfl, h2⟩
  · rintro (h | ⟨rfl, h⟩)
    · exact .rel h
    · exact .cons h

/-- `hexDigit` reflects strict order on nibbles. -/
theorem hexDigit_lt_iff {a b : Nat} (ha : a < 16) (hb : b < 16) :
    hexDigit a < hexDigit b ↔ a < b := by
  simp only [hexDigit]
  split_ifs <;> omega

/-- `hexDigit` reflects equality on nibbles. -/
theorem hexDigit_eq_iff {a b : Nat} (ha : a < 16) (hb : b < 16) :
    hexDigit a = hexDigit b ↔ a = b := by
  simp only [hexDigit]
  split_ifs <;> omega

/-- Byte-wise lexicographic order of byte lists agrees with lexicographic
order of their pairwise hex encodings. -/
theorem lex_flatMap_iff :
    ∀ (bs cs : List Nat), (∀ x ∈ bs, x < 256) → (∀ x ∈ cs, x < 256) →
    (List.Lex (· < ·) (bs.flatMap byteToHex) (cs.flatMap byteToHex) ↔
      List.Lex (· < ·) bs cs)
  | [], [], _, _ => Iff.rfl
  | [], c :: cs, _, _ => by
    simp only [List.flatMap_nil, List.flatMap_cons, byteToHex, List.cons_append]
    exact ⟨fun _ => .nil, fun _ => .nil⟩
  | b :: bs, [], _, _ => by
    simp only [List.flatMap_nil, List.flatMap_cons, byteToHex, List.cons_append]
    exact ⟨fun h => absurd h (List.Lex.not_nil_right _ _),
      fun h => absurd h (List.Lex.not_nil_right _ _)⟩
  | b :: bs, c :: cs, hb, hc => by
    have hblt : b < 256 := hb b (by simp)
    have hclt : c < 256 := hc c (by simp)
    have hbd : b / 16 < 16 := by omega
    have hbm : b % 16 < 16 := by omega
    have hcd : c / 16 < 16 := by omega
    have hcm : c % 16 < 16 := by omega
    have ihiff := lex_flatMap_iff bs cs (fun x hx => hb x (by simp [hx]))
      (fun x hx => hc x (by simp [hx]))
    simp only [List.flatMap_cons, byteToHex, List.cons_append, List.nil_append]
    rw [lex_cons_cons_iff, lex_cons_cons_iff, lex_cons_cons_iff,
      hexDigit_lt_iff hbd hcd, hexDigit_eq_iff hbd hcd,
      hexDigit_lt_iff hbm hcm, hexDigit_eq_iff hbm hcm, ihiff]
    constructor
    · rintro (h1 | ⟨h1, h2 | ⟨h2, h3⟩⟩)
      · exact Or.inl (by omega)
      · exact Or.inl (by omega)
      · exact Or.inr ⟨by omega, h3⟩
    · rintro (h1 | ⟨h1, h2⟩)
      · rcases Nat.lt_or_ge (b / 16) (c / 16) with hd | hd
        · exact Or.inl hd
        · exact Or.inr ⟨by omega, Or.inl (by omega)⟩
      · exact Or.inr ⟨by omega, Or.inr ⟨by omega, h2⟩⟩

/-- C8: `Hash` equality holds exactly when the byte arrays are equal (and any
derived hash is thereby a function of the raw bytes), and the byte-wise
lexicographic ordering of the raw bytes coincides with the lexicographic
ordering of the canonical hex strings. -/
theorem hash_eq_order_on_bytes (h₁ h₂ : Hash) (w₁ : h₁.wf) (w₂ : h₂.wf) :
    (h₁ = h₂ ↔ h₁.bytes = h₂.bytes) ∧
    (List.Lex (· < ·) h₁.bytes h₂.bytes ↔
      List.Lex (· < ·) h₁.toHexString h₂.toHexString) := by
  constructor
  · constructor
    · intro h
      rw [h]
    · intro h
      cases h₁
      cases h₂
      simpa using h
  · exact (lex_flatMap_iff h₁.bytes h₂.bytes w₁.2 w₂.2).symm

/-- Witness for C8 at two concrete hashes. -/
theorem hash_eq_order_on_bytes_witness :
    (Hash.wf ⟨List.range 32⟩) ∧ (Hash.wf ⟨List.replicate 32 7⟩) ∧
    (((⟨List.range 32⟩ : Hash) = ⟨List.replicate 32 7⟩ ↔
        (⟨List.range 32⟩ : Hash).bytes = (⟨List.replicate 32 7⟩ : Hash).bytes) ∧
      (List.Lex (· < ·) (⟨List.range 32⟩ : Hash).bytes (⟨List.replicate 32 7⟩ : Hash).bytes ↔
        List.Lex (· < ·) (Hash.toHexString ⟨List.range 32⟩)
          (Hash.toHexString ⟨List.replicate 32 7⟩))) :=
  ⟨by decide, by decide,
    hash_eq_order_on_bytes ⟨List.range 32⟩ ⟨List.replicate 32 7⟩ (by decide) (by decide)⟩

/-- The variant tag of a `MetaEntryDiff`, for stating variant preservation. -/
inductive DiffVariant where
  | Added
  | Deleted
  | MetaOnlyChange
  | EntryChange
  deriving DecidableEq

/-- Observer: which variant a `MetaEntryDiff` is. -/
def MetaEntryDiff.variant {Ts : Type} : MetaEntryDiff Ts → DiffVariant
  | .Added _ => .Added
  | .Deleted _ => .Deleted
  | .MetaOnlyChange _ => .MetaOnlyChange
  | .EntryChange _ _ => .EntryChange

/-- Observer: the carried `EntryDiff` of an `EntryChange`, if any. -/
def MetaEntryDiff.entry_diff {Ts : Type} : MetaEntryDiff Ts → Option EntryDiff
  | .EntryChange e _ => some e
  | _ => none

/-- C7: `transform_timestamps` preserves the path set, the variant of every
contained `MetaEntryDiff` together with any carried `EntryDiff`, and the
order and count of each `MetadataInfo`'s `MetadataChange` list as well as its
`inode` field; only the timestamp leaves (`created`, `modified`, `accessed`,
`inode_modified`) are replaced by applications of `f` (inside their
`MaybeChange`/`Option` shells, which are preserved). -/
theorem transform_timestamps_structure_preserving {Ts NewTs : Type}
    (c : Changeset Ts) (f : Ts → NewTs) :
    (c.transform_timestamps f).changes.map Prod.fst = c.changes.map Prod.fst ∧
    List.Forall₂ (fun pd qd =>
        pd.1 = qd.1 ∧
        qd.2.variant = pd.2.variant ∧
        qd.2.entry_diff = pd.2.entry_diff ∧
        qd.2.meta_info.changes = pd.2.meta_info.changes ∧
        qd.2.meta_info.inode = pd.2.meta_info.inode ∧
        qd.2.meta_info.created = pd.2.meta_info.created.map (fun o => o.map f) ∧
        qd.2.meta_info.modified = pd.2.meta_info.modified.map (fun o => o.map f) ∧
        qd.2.meta_info.accessed = pd.2.meta_info.accessed.map (fun o => o.map f) ∧
        qd.2.meta_info.inode_modified = pd.2.meta_info.inode_modified.map (fun o => o.map f))
      c.changes (c.transform_timestamps f).changes := by
  constructor
  · simp [Changeset.transform_timestamps]
  · simp only [Changeset.transform_timestamps, List.forall₂_map_right_iff]
    refine List.forall₂_same.mpr (fun pd _ => ?_)
    obtain ⟨p, d⟩ := pd
    cases d <;> exact ⟨rfl, rfl, rfl, rfl, rfl, rfl, rfl, rfl, rfl⟩

/-- Every element of `btreeInsert k v l` is `(k, v)` or an element of `l`. -/
theorem btreeInsert_mem {V : Type} (k : RStr) (v : V) :
    ∀ (l : List (RStr × V)) (x : RStr × V),
      x ∈ btreeInsert k v l → x = (k, v) ∨ x ∈ l := by
  intro l
  induction l with
  | nil =>
    intro x hx
    simp only [btreeInsert, List.mem_singleton] at hx
    exact Or.inl hx
  | cons p rest ih =>
    intro x hx
    obtain ⟨k', v'⟩ := p
    simp only [btreeInsert] at hx
    split_ifs at hx with h1 h2
    · rcases List.mem_cons.mp hx with h | h
      · exact Or.inl h
      · exact Or.inr h
    · rcases List.mem_cons.mp hx with h | h
      · exact Or.inl h
      · exact Or.inr (List.mem_cons_of_mem _ h)
    · rcases List.mem_cons.mp hx with h | h
      · exact Or.inr (h ▸ List.mem_cons_self _ _)
      · rcases ih x h with h | h
        · exact Or.inl h
        · exact Or.inr (List.mem_cons_of_mem _ h)

/-- Inserting a fresh key is, up to permutation, a cons. -/
theorem btreeInsert_perm {V : Type} (k : RStr) (v : V) :
    ∀ (l : List (RStr × V)), k ∉ l.map Prod.fst →
      (btreeInsert k v l).Perm ((k, v) :: l) := by
  intro l
  induction l with
  | nil =>
    intro _
    exact List.Perm.refl _
  | cons p rest ih =>
    intro hk
    obtain ⟨k', v'⟩ := p
    simp only [List.map_cons, List.mem_cons, not_or] at hk
    obtain ⟨hkk', hkrest⟩ := hk
    simp only [btreeInsert]
    by_cases h1 : List.Lex (· < ·) k k'
    · rw [if_pos h1]
    · rw [if_neg h1]
      by_cases h2 : k = k'
      · exact absurd h2 hkk'
      · rw [if_neg h2]
        exact ((ih hkrest).cons (k', v')).trans (List.Perm.swap (k, v) (k', v') rest)

/-- `btreeInsert` preserves strict sortedness by key. -/
theorem btreeInsert_pairwise {V : Type} (k : RStr) (v : V) :
    ∀ (l : List (RStr × V)), l.Pairwise (fun p q => List.Lex (· < ·) p.1 q.1) →
      (btreeInsert k v l).Pairwise (fun p q => List.Lex (· < ·) p.1 q.1) := by
  intro l
  induction l with
  | nil =>
    intro _
    simp [btreeInsert]
  | cons p rest ih =>
    intro hp
    obtain ⟨k', v'⟩ := p
    rw [List.pairwise_cons] at hp
    obtain ⟨hhead, htail⟩ := hp
    simp only [btreeInsert]
    split_ifs with h1 h2
    · rw [List.pairwise_cons]
      refine ⟨?_, ?_⟩
      · intro x hx
        rcases List.mem_cons.mp hx with rfl | hx
        · exact h1
        · exact lt_trans (α := List Nat) h1 (hhead x hx)
      · rw [List.pairwise_cons]
        exact ⟨hhead, htail⟩
    · subst h2
      rw [List.pairwise_cons]
      exact ⟨hhead, htail⟩
    · have hk'k : List.Lex (· < ·) k' k := by
        rcases lt_trichotomy (α := List Nat) k k' with h | h | h
        · exact absurd h h1
        · exact absurd h h2
        · exact h
      rw [List.pairwise_cons]
      refine ⟨?_, ih htail⟩
      intro x hx
      rcases btreeInsert_mem k v rest x hx with rfl | hx
      · exact hk'k
      · exact hhead x hx

/-- The insert fold keeps the entry list sorted. -/
theorem btreeFold_pairwise {V : Type} :
    ∀ (l acc : List (RStr × V)),
      acc.Pairwise (fun p q => List.Lex (· < ·) p.1 q.1) →
      (l.foldl (fun m kv => btreeInsert kv.1 kv.2 m) acc).Pairwise
        (fun p q => List.Lex (· < ·) p.1 q.1)
  | [], _, h => h
  | p :: l, acc, h => btreeFold_pairwise l _ (btreeInsert_pairwise p.1 p.2 acc h)

/-- With pairwise-distinct keys, the insert fold is a permutation of the
accumulated and remaining entries. -/
theorem btreeFold_perm {V : Type} :
    ∀ (l acc : List (RStr × V)), ((acc ++ l).map Prod.fst).Nodup →
      (l.foldl (fun m kv => btreeInsert kv.1 kv.2 m) acc).Perm (acc ++ l) := by
  intro l
  induction l with
  | nil =>
    intro acc _
    simp
  | cons p l ih =>
    intro acc h
    have hp : p.1 ∉ acc.map Prod.fst := by
      rw [List.map_append, List.nodup_append] at h
      intro hmem
      exact h.2.2 hmem (by simp)
    have hins : (btreeInsert p.1 p.2 acc).Perm (p :: acc) := btreeInsert_perm p.1 p.2 acc hp
    have hmid : (acc ++ p :: l).Perm (p :: (acc ++ l)) := List.perm_middle
    have hkeysperm : ((btreeInsert p.1 p.2 acc ++ l)).Perm (acc ++ p :: l) := by
      refine ((hins.append_right l).trans ?_)
      exact (List.perm_middle).symm
    have hkeys : ((btreeInsert p.1 p.2 acc ++ l).map Prod.fst).Nodup :=
      ((hkeysperm.map Prod.fst).symm).nodup h
    have hfold := ih (btreeInsert p.1 p.2 acc) hkeys
    exact hfold.trans hkeysperm

/-- C6: building a `Changeset`'s `BTreeMap` by inserting (path, diff) pairs
with distinct paths in any order yields the same `Changeset`, and the
resulting path-to-diff mapping iterates (hence serializes) in lexicographic
order of the path byte strings. -/
theorem changeset_build_order_independent {Ts : Type} (t : Timestamp)
    (l₁ l₂ : List (RStr × MetaEntryDiff Ts)) (hperm : l₁.Perm l₂)
    (hnodup : (l₁.map Prod.fst).Nodup) :
    Changeset.mk t (btreeOfList l₁) = Changeset.mk t (btreeOfList l₂) ∧
    (btreeOfList l₁).Pairwise (fun p q => List.Lex (· < ·) p.1 q.1) := by
  have hnodup₂ : (l₂.map Prod.fst).Nodup := (hperm.map Prod.fst).nodup hnodup
  have h1 : (btreeOfList l₁).Perm l₁ := by
    simpa using btreeFold_perm l₁ [] (by simpa using hnodup)
  have h2 : (btreeOfList l₂).Perm l₂ := by
    simpa using btreeFold_perm l₂ [] (by simpa using hnodup₂)
  have hs₁ : (btreeOfList l₁).Pairwise (fun p q => List.Lex (· < ·) p.1 q.1) :=
    btreeFold_pairwise l₁ [] (List.Pairwise.nil)
  have hs₂ : (btreeOfList l₂).Pairwise (fun p q => List.Lex (· < ·) p.1 q.1) :=
    btreeFold_pairwise l₂ [] (List.Pairwise.nil)
  have anti : IsAntisymm (RStr × MetaEntryDiff Ts) (fun p q => List.Lex (· < ·) p.1 q.1) :=
    ⟨fun a b hab hba => absurd hba (lt_asymm (α := List Nat) hab)⟩
  have hp : (btreeOfList l₁).Perm (btreeOfList l₂) := h1.trans (hperm.trans h2.symm)
  have heq : btreeOfList l₁ = btreeOfList l₂ :=
    @List.eq_of_perm_of_sorted _ _ anti _ _ hp hs₁ hs₂
  exact ⟨by rw [heq], hs₁⟩

/-- An empty metadata info for the C6 witness. -/
def c6Info : MetadataInfo Timestamp :=
  ⟨[], .Same none, .Same none, .Same none, .Same none, .Same none⟩

/-- First insertion order for the C6 witness. -/
def c6Pairs1 : List (RStr × MetaEntryDiff Timestamp) :=
  [(strBytes "b", .Added c6Info), (strBytes "a", .MetaOnlyChange c6Info)]

/-- Second insertion order for the C6 witness. -/
def c6Pairs2 : List (RStr × MetaEntryDiff Timestamp) :=
  [(strBytes "a", .MetaOnlyChange c6Info), (strBytes "b", .Added c6Info)]

/-- Witness for C6 at two concrete insertion orders of the same pairs. -/
theorem changeset_build_order_independent_witness :
    c6Pairs1.Perm c6Pairs2 ∧ (c6Pairs1.map Prod.fst).Nodup ∧
    (Changeset.mk ⟨⟨2024, 1, 1, 0, 0, 0, 0⟩⟩ (btreeOfList c6Pairs1)
        = Changeset.mk ⟨⟨2024, 1, 1, 0, 0, 0, 0⟩⟩ (btreeOfList c6Pairs2) ∧
      (btreeOfList c6Pairs1).Pairwise (fun p q => List.Lex (· < ·) p.1 q.1)) :=
  ⟨List.Perm.swap _ _ _, by decide,
    changeset_build_order_independent ⟨⟨2024, 1, 1, 0, 0, 0, 0⟩⟩ c6Pairs1 c6Pairs2
      (List.Perm.swap _ _ _) (by decide)⟩

/-- C2: for every UTC instant representable by the model (valid calendar
components; nanoseconds give at most 9 fractional digits), decoding the
string produced by encoding the `Timestamp` with the fixed
`YYYY-MM-DD HH:MM:SS.s+` format yields a `Timestamp` equal to the original,
with full sub-second precision preserved.  The format carries no offset and
the parsed date-time is assumed UTC, so the UTC components are exactly what
the codec transports. -/
theorem timestamp_roundtrip (ts : Timestamp) (hv : ts.inner.valid) :
    timestamp_serde.deserialize (timestamp_serde.serialize ts) = some ts := by
  obtain ⟨t⟩ := ts
  have hv' : t.valid := hv
  have hmain : parseTimestamp (formatTimestamp t) = some t := by
    rcases lt_or_le t.year 0 with hneg | hpos
    · have hyr : (if true then -(t.year.natAbs : Int) else (t.year.natAbs : Int)) = t.year := by
        simp only [if_true]
        omega
      have happ := parseAfterSign_format t hv' true hyr
      simp only [parseTimestamp, formatTimestamp, if_pos hneg, List.append_assoc,
        List.cons_append, List.nil_append, parseSign_neg]
      exact happ
    · have hyr : (if false then -(t.year.natAbs : Int) else (t.year.natAbs : Int)) = t.year := by
        rw [if_neg (by decide)]
        omega
      have happ := parseAfterSign_format t hv' false hyr
      simp only [parseTimestamp, formatTimestamp, if_neg (by omega : ¬ t.year < 0),
        List.append_assoc, List.cons_append, List.nil_append]
      rw [parseSign_digits (padDigits 4 t.year.natAbs) _ (padDigits_ne_nil 4 _)
        padDigits_digits]
      exact happ
  simp only [timestamp_serde.deserialize, timestamp_serde.serialize]
  rw [hmain]
  rfl

/-- Witness for C2 at the concrete instant `2024-02-29 23:59:59.123456789`. -/
theorem timestamp_roundtrip_witness :
    (Timestamp.mk ⟨2024, 2, 29, 23, 59, 59, 123456789⟩).inner.valid ∧
    timestamp_serde.deserialize
        (timestamp_serde.serialize ⟨⟨2024, 2, 29, 23, 59, 59, 123456789⟩⟩)
      = some ⟨⟨2024, 2, 29, 23, 59, 59, 123456789⟩⟩ :=
  ⟨by decide, timestamp_roundtrip ⟨⟨2024, 2, 29, 23, 59, 59, 123456789⟩⟩ (by decide)⟩

end SniffInterop
